import Mathlib

set_option allowUnsafeReducibility true
attribute [semireducible] Rat.add Rat.mul Rat.sub Rat.inv Rat.ofScientific

/-!
Shallow embedding of the content model and the `PDFContents` collection engine
of the pdf-handler repository (file `src/extract/contents.py`, the revision the
spec pins; `src/pdf_contents.py` is the superseded variant that differs only in
not trimming merged text).

Modelling conventions:
* Python `float` values (coordinates, sizes, tolerances) are modelled as `ℚ`;
  Python `int` as `ℤ`; Python `str` as `List Char` (a string is its sequence of
  code points).  `round(x, 2)` is modelled by `roundTo2`, implementing Python's
  round-half-to-even on the rational idealisation.
* `fitz.Page` handles are external opaque objects and are dropped from `Page`;
  dataclass equality on the remaining fields models Python `==`.
* Python's stable `list.sort(key=...)` is modelled by Mathlib's
  `List.insertionSort`, which is a stable sort; a stable sort is determined
  uniquely by the (total, transitive) boolean comparison, so the two agree.
* Methods that mutate `self` are modelled as functions returning the new value
  of the receiver.  The single genuinely aliased mutation of the code base
  (`assign_horizontal_end_on_page` writing the shared `Content` objects) is
  additionally modelled with an explicit store (`Store`) whose cells play the
  role of the heap-allocated `Content` objects.
-/

namespace PdfHandler

/-- A dynamic value reached by an `attrgetter` path: Python `int`, `float`
or `str`. -/
inductive Value where
  | int (z : ℤ)
  | rat (q : ℚ)
  | chars (s : List Char)
deriving DecidableEq

/-- Boolean `≤` on characters (Python compares strings by code point). -/
def charLe (a b : Char) : Bool := decide (a ≤ b)

/-- Lexicographic boolean `≤` on lists, comparing positionwise and moving on
exactly when the current components are equal — Python's tuple comparison. -/
def lexLe (le : α → α → Bool) [DecidableEq α] : List α → List α → Bool
  | [], _ => true
  | _ :: _, [] => false
  | a :: as, b :: bs => if a = b then lexLe le as bs else le a b

/-- Boolean `≤` on dynamic values.  Distinct runtime types are ordered by an
arbitrary fixed precedence (int < rat < chars); in every sort the code performs,
a given key position always carries one single type, so the cross-type cases
are never exercised. -/
def vLe : Value → Value → Bool
  | .int a, .int b => decide (a ≤ b)
  | .int _, .rat _ => true
  | .int _, .chars _ => true
  | .rat _, .int _ => false
  | .rat a, .rat b => decide (a ≤ b)
  | .rat _, .chars _ => true
  | .chars _, .int _ => false
  | .chars _, .rat _ => false
  | .chars a, .chars b => lexLe charLe a b

/-- Floor of a rational, computed explicitly so that kernel evaluation works. -/
def qfloor (q : ℚ) : ℤ := Int.fdiv q.num q.den

/-- Round a rational to the nearest integer, ties to even — Python's
`round(x)`. -/
def rhe (q : ℚ) : ℤ :=
  let f : ℤ := qfloor q
  let r : ℚ := q - (f : ℚ)
  if r < 1/2 then f
  else if 1/2 < r then f + 1
  else if f % 2 = 0 then f else f + 1

/-- Python's `round(x, 2)`. -/
def roundTo2 (q : ℚ) : ℚ := ((rhe (q * 100) : ℚ)) / 100

/-- Whitespace test used by `str.strip()`. -/
def isWS (c : Char) : Bool := c.isWhitespace

/-- Python's `s.strip()`: drop whitespace from both ends. -/
def trimText (l : List Char) : List Char :=
  ((l.dropWhile isWS).reverse.dropWhile isWS).reverse

/-- Python's `" ".join(ts)`. -/
def joinTexts : List (List Char) → List Char
  | [] => []
  | [t] => t
  | t :: ts => t ++ ' ' :: joinTexts ts

/-- Embedding of `Page` of `src/extract/contents.py` (the opaque `fitz_page` handle is
dropped; equality on the remaining fields models dataclass equality). -/
structure Page where
  number : ℤ
  width : ℚ
  height : ℚ
deriving DecidableEq

/-- Embedding of `Block` of `src/extract/contents.py`. -/
structure Block where
  page : Page
  id : ℤ
  number : ℤ
  bbox : ℚ × ℚ × ℚ × ℚ
deriving DecidableEq

/-- Embedding of `Line` of `src/extract/contents.py`. -/
structure Line where
  block : Block
  id : ℤ
  number : ℤ
  bbox : ℚ × ℚ × ℚ × ℚ
deriving DecidableEq

/-- Embedding of `Content` of `src/extract/contents.py`: one text span. -/
structure Content where
  line : Line
  id : ℤ
  number : ℤ
  text : List Char
  bbox : ℚ × ℚ × ℚ × ℚ
  origin : ℚ × ℚ
  ascender : ℚ
  descender : ℚ
  size : ℚ
  font : List Char
  flags : ℤ
  char_flags : ℤ
  bidi : ℤ
  alpha : ℤ
  rgb_color : ℤ
  horizontal_end_on_page : Option ℤ := none
deriving DecidableEq

/-- Embedding of `Content.block` property. -/
def Content.block (c : Content) : Block := c.line.block

/-- Embedding of `Content.page` property. -/
def Content.page (c : Content) : Page := c.block.page

/-- Embedding of `Content.xl` property. -/
def Content.xl (c : Content) : ℚ := c.bbox.1

/-- Embedding of `Content.yt` property. -/
def Content.yt (c : Content) : ℚ := c.bbox.2.1

/-- Embedding of `Content.xr` property. -/
def Content.xr (c : Content) : ℚ := c.bbox.2.2.1

/-- Embedding of `Content.yb` property. -/
def Content.yb (c : Content) : ℚ := c.bbox.2.2.2

/-- Embedding of `Content.xo` property. -/
def Content.xo (c : Content) : ℚ := c.origin.1

/-- Embedding of `Content.yo` property. -/
def Content.yo (c : Content) : ℚ := c.origin.2

/-- The closed set of `attrgetter` paths the engine sorts or compares by. -/
inductive Attr where
  | page_number
  | yo
  | xo
  | block_id
  | line_id
  | rgb_color
  | font
  | size
  | id
  | text
  | xl
deriving DecidableEq

/-- Resolve an attribute path against a span (`attrgetter(path)(content)`). -/
def attrVal : Attr → Content → Value
  | .page_number, c => .int c.page.number
  | .yo, c => .rat c.yo
  | .xo, c => .rat c.xo
  | .block_id, c => .int c.block.id
  | .line_id, c => .int c.line.id
  | .rgb_color, c => .int c.rgb_color
  | .font, c => .chars c.font
  | .size, c => .rat c.size
  | .id, c => .int c.id
  | .text, c => .chars c.text
  | .xl, c => .rat c.xl

/-- Whether a resolved attribute is a Python `int` or `float`. -/
def isNumVal : Value → Bool
  | .int _ => true
  | .rat _ => true
  | .chars _ => false

/-- Numeric content of a resolved attribute (only used after `isNumVal`). -/
def numVal : Value → ℚ
  | .int z => (z : ℚ)
  | .rat q => q
  | .chars _ => 0

/-- The key tuple `tuple(attrgetter(p)(c) for p in k)`. -/
def keyOf (k : List Attr) (c : Content) : List Value :=
  k.map (fun a => attrVal a c)

/-- Boolean comparison of two spans under a sort key (Python tuple `≤`). -/
def contentLe (k : List Attr) (a b : Content) : Bool :=
  lexLe vLe (keyOf k a) (keyOf k b)

/-- The sort relation induced by a key. -/
abbrev rKey (k : List Attr) (a b : Content) : Prop := contentLe k a b = true

instance (k : List Attr) : DecidableRel (rKey k) :=
  fun a b => Bool.decEq (contentLe k a b) true

/-- Stable sort by a key — the model of Python's `list.sort(key=attrgetter _)`. -/
def sortList (k : List Attr) (l : List Content) : List Content :=
  List.insertionSort (rKey k) l

/-- Embedding of `PDFContents`: the span list plus its cached sort key, cached bucket
delimiters and joined flag. -/
structure PDFContents where
  contents : List Content
  sorted_by : Option (List Attr) := none
  horizontal_end_on_page_by_x : Option (List ℚ) := none
  is_joined : Bool := false
deriving DecidableEq

/-- Embedding of `PDFContents.copy`: a new collection over the same spans carrying the same
cached metadata. -/
def PDFContents.copy (c : PDFContents) : PDFContents :=
  ⟨c.contents, c.sorted_by, c.horizontal_end_on_page_by_x, c.is_joined⟩

/-- Default sort key of `PDFContents.sort`. -/
def defaultSortKey : List Attr :=
  [.page_number, .yo, .xo, .block_id, .line_id]

/-- The key `join` sorts by before merging. -/
def joinKey : List Attr :=
  [.page_number, .yo, .xo, .block_id, .line_id, .rgb_color, .font, .size]

/-- The fallback key of `join`'s final re-sort. -/
def joinFallbackKey : List Attr := [.page_number, .block_id, .line_id]

/-- Embedding of `PDFContents.sort(by, use_cache)`. -/
def PDFContents.sort (k : List Attr) (use_cache : Bool) (c : PDFContents) :
    PDFContents :=
  if use_cache = true ∧ c.sorted_by = some k then c
  else { c with contents := sortList k c.contents, sorted_by := some k }

/-- Embedding of `PDFContents.sorted(by, use_cache)` — copy, then sort the copy. -/
def PDFContents.sorted (k : List Attr) (use_cache : Bool) (c : PDFContents) :
    PDFContents :=
  PDFContents.sort k use_cache (PDFContents.copy c)

/-- Embedding of `PDFContents._is_sequential(content1, content2)`. -/
def PDFContents.is_sequential (c1 c2 : Content) : Bool :=
  decide (c1.line.id = c2.line.id)
  && decide (c1.font = c2.font)
  && decide (c1.flags = c2.flags)
  && decide (c1.char_flags = c2.char_flags)
  && decide (c1.bidi = c2.bidi)
  && decide (c1.alpha = c2.alpha)
  && decide (c1.rgb_color = c2.rgb_color)
  && decide (c1.horizontal_end_on_page = c2.horizontal_end_on_page)
  && decide (roundTo2 c1.size = roundTo2 c2.size)
  && decide (roundTo2 c1.yo = roundTo2 c2.yo)

/-- One step of the scanning loops of `join`: from a group whose last member so
far is `prev`, consume the remaining chain of the current group and split the
rest of the list into the following groups.  This is the structural translation
of the nested `while` loops of `PDFContents.join` (each group is a pair of its
first member and the list of its remaining members). -/
def chainFrom (R : α → α → Bool) : α → List α → List α × List (α × List α)
  | _, [] => ([], [])
  | prev, x :: xs =>
    if R x prev then
      let p := chainFrom R x xs
      (x :: p.1, p.2)
    else
      let p := chainFrom R x xs
      ([], (x, p.1) :: p.2)

/-- The grouping pass of `join`: split a list into the maximal runs in which
each element is `R`-related to its immediate predecessor. -/
def seqGroups (R : α → α → Bool) : List α → List (α × List α)
  | [] => []
  | x :: xs =>
    let p := chainFrom R x xs
    (x, p.1) :: p.2

/-- The members of a group, first member first. -/
def groupMembers (g : α × List α) : List α := g.1 :: g.2

/-- Flatten a group list back to the underlying sequence. -/
def flattenGroups (gs : List (α × List α)) : List α :=
  (gs.map groupMembers).flatten

/-- Python `min(members.map f)` (fold from the first element). -/
def listMin [LinearOrder β] (f : Content → β) (a : Content) (t : List Content) :
    β :=
  (t.map f).foldl min (f a)

/-- Python `max(members.map f)` (fold from the first element). -/
def listMax [LinearOrder β] (f : Content → β) (a : Content) (t : List Content) :
    β :=
  (t.map f).foldl max (f a)

/-- Embedding of `PDFContents._create_content_by_sequential(sequencial_contents,
new_content_id)` of `src/extract/contents.py` (the revision that strips the
joined text). -/
def PDFContents.create_content_by_sequential (g : Content × List Content)
    (new_content_id : ℤ) : Content :=
  let a := g.1
  let t := g.2
  { line := a.line
    id := new_content_id
    number := listMin (·.number) a t
    text := trimText (joinTexts ((a :: t).map (·.text)))
    bbox := (listMin (·.xl) a t, listMin (·.yt) a t,
             listMax (·.xr) a t, listMax (·.yb) a t)
    origin := (listMin (·.xo) a t, listMin (·.yo) a t)
    ascender := listMax (·.ascender) a t
    descender := listMin (·.descender) a t
    size := a.size
    font := a.font
    flags := a.flags
    char_flags := a.char_flags
    bidi := a.bidi
    alpha := a.alpha
    rgb_color := a.rgb_color
    horizontal_end_on_page := a.horizontal_end_on_page }

/-- Synthesize one span per group, assigning ids densely from `n` in
group-emission order. -/
def emitGroups : List (Content × List Content) → ℤ → List Content
  | [], _ => []
  | g :: gs, n =>
    PDFContents.create_content_by_sequential g n :: emitGroups gs (n + 1)

/-- Embedding of `PDFContents.join(use_cache)`.  Note that the final re-sort key is read
from `self.__sorted_by` after the initial sort has already overwritten it, so
it is always `joinKey` and the `None` fallback branch is dead. -/
def PDFContents.join (use_cache : Bool) (c : PDFContents) : PDFContents :=
  if use_cache = true ∧ c.is_joined = true then c
  else
    let c1 := PDFContents.sort joinKey true c
    let emitted := emitGroups (seqGroups PDFContents.is_sequential c1.contents) 0
    let sort_key := match c1.sorted_by with
      | some k => k
      | none => joinFallbackKey
    { contents := sortList sort_key emitted
      sorted_by := c1.sorted_by
      horizontal_end_on_page_by_x := c1.horizontal_end_on_page_by_x
      is_joined := true }

/-- Embedding of `PDFContents.joined(use_cache)` — copy, then join the copy. -/
def PDFContents.joined (use_cache : Bool) (c : PDFContents) : PDFContents :=
  PDFContents.join use_cache (PDFContents.copy c)

/-- The per-span bucket loop of `assign_horizontal_end_on_page`: the index of
the first delimiter with `xl ≤ delimiter`, or the number of delimiters when
none qualifies. -/
def assignedBucket : List ℚ → ℚ → ℕ
  | [], _ => 0
  | d :: ds, x => if x ≤ d then 0 else assignedBucket ds x + 1

/-- Write the bucket of one span. -/
def assignContent (x_delimiters : List ℚ) (cnt : Content) : Content :=
  { cnt with
    horizontal_end_on_page := some ((assignedBucket x_delimiters cnt.xl : ℕ) : ℤ) }

/-- Embedding of `PDFContents.assign_horizontal_end_on_page(x_delimiters, use_cache)`. -/
def PDFContents.assign_horizontal_end_on_page (x_delimiters : List ℚ)
    (use_cache : Bool) (c : PDFContents) : PDFContents :=
  if use_cache = true ∧ c.horizontal_end_on_page_by_x = some x_delimiters then c
  else
    { c with
      contents := c.contents.map (assignContent x_delimiters)
      horizontal_end_on_page_by_x := some x_delimiters }

/-- Embedding of `PDFContents.horizontal_end_on_page_assigned` — copy, then assign on the
copy. -/
def PDFContents.horizontal_end_on_page_assigned (x_delimiters : List ℚ)
    (use_cache : Bool) (c : PDFContents) : PDFContents :=
  PDFContents.assign_horizontal_end_on_page x_delimiters use_cache
    (PDFContents.copy c)

/-- The error cases of the group-extraction queries (`ValueError`s in the
source, told apart here by their message; plus Python's `IndexError` for an
out-of-range reference index). -/
inductive PdfError where
  | invalidArgument
  | indexError
  | referenceNotFound
deriving DecidableEq

instance : DecidableEq (Except PdfError PDFContents) := fun a b =>
  match a, b with
  | .error e1, .error e2 =>
    match decEq e1 e2 with
    | isTrue h => isTrue (by rw [h])
    | isFalse h => isFalse (by intro hh; cases hh; exact h rfl)
  | .error _, .ok _ => isFalse (by intro h; cases h)
  | .ok _, .error _ => isFalse (by intro h; cases h)
  | .ok x, .ok y =>
    match decEq x y with
    | isTrue h => isTrue (by rw [h])
    | isFalse h => isFalse (by intro hh; cases hh; exact h rfl)

/-- Embedding of `PDFContents._is_same_attr(content1, content2, attr, diff_tolerance)`. -/
def PDFContents.is_same_attr (c1 c2 : Content) (attr : Attr)
    (diff_tolerance : ℚ) : Bool :=
  decide (c1.page = c2.page)
  && decide (|numVal (attrVal attr c1) - numVal (attrVal attr c2)| ≤ diff_tolerance)

/-- Embedding of `PDFContents._is_same_row(content1, content2, yo_diff_tolerance)`. -/
def PDFContents.is_same_row (c1 c2 : Content) (yo_diff_tolerance : ℚ) : Bool :=
  decide (c1.page.number = c2.page.number)
  && decide (|roundTo2 c1.yo - roundTo2 c2.yo| ≤ yo_diff_tolerance)

/-- The forward scan shared by both group-extraction queries: skip to the
first element satisfying `p`, then collect the contiguous run from there;
`none` when no element satisfies `p`. -/
def findBand (p : α → Bool) : List α → Option (α × List α)
  | [] => none
  | x :: xs => if p x then some (x, xs.takeWhile p) else findBand p xs

/-- Embedding of `PDFContents.get_contents_from_same_attr(i_ref, attr, diff_tolerance)`. -/
def PDFContents.get_contents_from_same_attr (i_ref : ℕ) (attr : Attr)
    (diff_tolerance : ℚ) (c : PDFContents) : Except PdfError PDFContents :=
  if diff_tolerance < 0 then .error .invalidArgument
  else
    match c.contents[i_ref]? with
    | none => .error .indexError
    | some content_ref =>
      if isNumVal (attrVal attr content_ref) = false then
        .error .invalidArgument
      else
        let pdf_content :=
          PDFContents.sort [Attr.page_number, attr] true (PDFContents.copy c)
        match findBand
            (fun x => PDFContents.is_same_attr x content_ref attr diff_tolerance)
            pdf_content.contents with
        | none => .error .referenceNotFound
        | some (x, band) =>
          let sort_key := match c.sorted_by with
            | some k => k
            | none => [Attr.id]
          .ok (PDFContents.sort sort_key true ⟨x :: band, none, none, false⟩)

/-- Embedding of `PDFContents.get_contents_from_same_row(i_ref, yo_diff_tolerance)`. -/
def PDFContents.get_contents_from_same_row (i_ref : ℕ)
    (yo_diff_tolerance : ℚ) (c : PDFContents) : Except PdfError PDFContents :=
  if yo_diff_tolerance < 0 then .error .invalidArgument
  else
    match c.contents[i_ref]? with
    | none => .error .indexError
    | some content_ref =>
      let pdf_content :=
        PDFContents.sort [Attr.page_number, Attr.yo] true (PDFContents.copy c)
      match findBand
          (fun x => PDFContents.is_same_row x content_ref yo_diff_tolerance)
          pdf_content.contents with
      | none => .error .referenceNotFound
      | some (x, band) =>
        let sort_key := match c.sorted_by with
          | some k => k
          | none => [Attr.id]
        .ok (PDFContents.sort sort_key true ⟨x :: band, none, none, false⟩)

/-- A collection's cached sort key is truthful: whenever a key is cached, the
backing list really is sorted by it.  Every collection the code itself builds
satisfies this; the public constructor can violate it. -/
def CacheTruthful (c : PDFContents) : Prop :=
  match c.sorted_by with
  | some k => List.Sorted (rKey k) c.contents
  | none => True

instance (c : PDFContents) : Decidable (CacheTruthful c) := by
  unfold CacheTruthful
  cases c.sorted_by with
  | none => exact inferInstance
  | some k => exact inferInstance

/-! ### Heap model for the aliasing behaviour of bucket assignment

Spans are heap objects shared between a collection and its copies.  `Store` is
that heap: a list of `Content` cells, and a collection holds cell indices.
Only `assign_horizontal_end_on_page` ever writes a shared cell. -/

/-- The heap of `Content` cells. -/
abbrev Store := List Content

/-- A collection as the code's object graph sees it: indices into the store
plus the cached metadata. -/
structure RefPDFContents where
  elems : List ℕ
  sorted_by : Option (List Attr) := none
  horizontal_end_on_page_by_x : Option (List ℚ) := none
  is_joined : Bool := false
deriving DecidableEq

/-- Embedding of `PDFContents.copy` in the heap model: a fresh collection object over the
very same cells, carrying the same cached metadata. -/
def RefPDFContents.copy (c : RefPDFContents) : RefPDFContents :=
  ⟨c.elems, c.sorted_by, c.horizontal_end_on_page_by_x, c.is_joined⟩

/-- The mutation loop of `assign_horizontal_end_on_page` on the heap: write
the bucket of every span of the collection, in order. -/
def storeAssign (x_delimiters : List ℚ) (ids : List ℕ) (σ : Store) : Store :=
  ids.foldl
    (fun σ i =>
      match σ[i]? with
      | none => σ
      | some cnt => σ.set i (assignContent x_delimiters cnt))
    σ

/-- Embedding of `assign_horizontal_end_on_page` in the heap model: returns the updated
receiver object and the updated heap. -/
def RefPDFContents.assign_horizontal_end_on_page (x_delimiters : List ℚ)
    (use_cache : Bool) (c : RefPDFContents) (σ : Store) :
    RefPDFContents × Store :=
  if use_cache = true ∧ c.horizontal_end_on_page_by_x = some x_delimiters then
    (c, σ)
  else
    ({ c with horizontal_end_on_page_by_x := some x_delimiters },
     storeAssign x_delimiters c.elems σ)

/-- Embedding of `horizontal_end_on_page_assigned` in the heap model: copy, assign on the
copy, return (receiver after the call, returned copy, heap after the call).
The receiver is returned unchanged because the method body writes only the
copy's cached fields and the shared `Content` cells, never `self`. -/
def RefPDFContents.horizontal_end_on_page_assigned (x_delimiters : List ℚ)
    (use_cache : Bool) (c : RefPDFContents) (σ : Store) :
    RefPDFContents × RefPDFContents × Store :=
  let p := RefPDFContents.assign_horizontal_end_on_page x_delimiters use_cache
    (RefPDFContents.copy c) σ
  (c, p.1, p.2)

/-! ### Concrete fixtures used by witnesses and counterexamples -/

/-- A page fixture. -/
def pageA : Page := ⟨0, 612, 792⟩

/-- A block fixture on `pageA`. -/
def blockA : Block := ⟨pageA, 0, 0, (0, 0, 612, 792)⟩

/-- A second block fixture on `pageA`. -/
def blockB : Block := ⟨pageA, 2, 1, (0, 0, 612, 792)⟩

/-- A line fixture in `blockA`. -/
def lineA : Line := ⟨blockA, 0, 0, (0, 0, 612, 20)⟩

/-- A line fixture in `blockB`. -/
def lineB : Line := ⟨blockB, 2, 0, (0, 30, 612, 50)⟩

/-- A span fixture all concrete spans are record-updates of. -/
def baseSpan : Content :=
  { line := lineA
    id := 0
    number := 0
    text := ['a']
    bbox := (0, 0, 10, 10)
    origin := (0, 0)
    ascender := 8
    descender := -2
    size := 10
    font := ['f']
    flags := 0
    char_flags := 0
    bidi := 0
    alpha := 255
    rgb_color := 0
    horizontal_end_on_page := none }

/-- A span whose text carries surrounding whitespace (for the C1
counterexample). -/
def spanWs : Content := { baseSpan with text := [' ', 'x', ' '] }

/-- One-span collection around `spanWs`. -/
def cWs : PDFContents := ⟨[spanWs], none, none, false⟩

/-- C4 fixture: span `A` (merges with `B` only on the second pass). -/
def spanA4 : Content :=
  { baseSpan with id := 0, text := ['A'], origin := (5, 1001/1000) }

/-- C4 fixture: span `W` (first member of the `W X` run). -/
def spanW4 : Content :=
  { baseSpan with id := 1, text := ['W'], origin := (9, 1001/1000), rgb_color := 1 }

/-- C4 fixture: span `X` (second member of the `W X` run, smaller `xo`). -/
def spanX4 : Content :=
  { baseSpan with id := 2, text := ['X'], origin := (3, 501/500), rgb_color := 1 }

/-- C4 fixture: span `B`. -/
def spanB4 : Content :=
  { baseSpan with id := 3, text := ['B'], origin := (7, 251/250) }

/-- C4 counterexample collection: joining once produces three spans, joining
again merges two of them. -/
def cFour : PDFContents := ⟨[spanA4, spanW4, spanX4, spanB4], none, none, false⟩

/-- C3 fixture: a span in the first block, lower on the page. -/
def spanG3 : Content :=
  { baseSpan with id := 0, text := ['G'], origin := (0, 2) }

/-- C3 fixture: a span in the second block, higher on the page. -/
def spanH3 : Content :=
  { baseSpan with line := lineB, id := 1, text := ['H'], origin := (0, 1) }

/-- C3 counterexample collection: the claimed fallback re-sort key and the
actual re-sort key order these two spans differently. -/
def cThree : PDFContents := ⟨[spanG3, spanH3], none, none, false⟩

/-- C6 fixture: first span of the row, `yo = 100.001`. -/
def spanR1 : Content :=
  { baseSpan with id := 0, text := ['p'], origin := (0, 100001/1000) }

/-- C6 fixture: second span of the row, `yo = 100.004`. -/
def spanR2 : Content :=
  { baseSpan with id := 1, text := ['q'], origin := (5, 25001/250) }

/-- Two-span same-row collection (scenario B of the spec). -/
def cRow : PDFContents := ⟨[spanR1, spanR2], none, none, false⟩

/-- Bucket fixture: span with `xl = 150`. -/
def span150 : Content := { baseSpan with id := 0, bbox := (150, 0, 160, 10) }

/-- Bucket fixture: span with `xl = 250`. -/
def span250 : Content := { baseSpan with id := 1, bbox := (250, 0, 260, 10) }

/-- Bucket fixture: span with `xl = 450`. -/
def span450 : Content := { baseSpan with id := 2, bbox := (450, 0, 460, 10) }

/-- Bucket witness collection (scenario C of the spec). -/
def cBuck : PDFContents := ⟨[span150, span250, span450], none, none, false⟩

/-- Heap-model witness collection: cells 0 and 1 of the store. -/
def cRef10 : RefPDFContents := ⟨[0, 1], none, none, false⟩

/-- Heap-model witness store. -/
def storeTen : Store := [span150, span250]

/-- A collection whose cached sort key is the default key (for the C5
cache-hit witness). -/
def cSorted : PDFContents := ⟨[spanR1, spanR2], some defaultSortKey, none, false⟩

/-! ### Spec-side shorthands for the join contract -/

/-- The maximal groups the merge pass of `join` scans over. -/
def joinGroupsOf (c : PDFContents) : List (Content × List Content) :=
  seqGroups PDFContents.is_sequential (PDFContents.sort joinKey true c).contents

/-- The spans `join` synthesizes, in group-emission order. -/
def joinEmitted (c : PDFContents) : List Content :=
  emitGroups (joinGroupsOf c) 0

/-- The synthesis contract of one merged span `m` for group `g` emitted at
position `i` (the wording of C1): `bbox` is the componentwise union over the
group, `text` is the members' texts joined with single spaces then stripped,
`number` is the minimum member number, `origin` the componentwise minimum of
the member origins, `ascender` the maximum and `descender` the minimum,
the style fields and the line reference come from the group's first member,
and the id is the emission position; moreover, whenever all member texts are
non-empty and trim-stable, every member's text appears, in group order, inside
the merged text. -/
def MergedSpanSpec (g : Content × List Content) (m : Content) (i : ℕ) : Prop :=
  m.id = (i : ℤ) ∧
  ((∃ x ∈ groupMembers g, m.xl = x.xl) ∧ ∀ x ∈ groupMembers g, m.xl ≤ x.xl) ∧
  ((∃ x ∈ groupMembers g, m.yt = x.yt) ∧ ∀ x ∈ groupMembers g, m.yt ≤ x.yt) ∧
  ((∃ x ∈ groupMembers g, m.xr = x.xr) ∧ ∀ x ∈ groupMembers g, x.xr ≤ m.xr) ∧
  ((∃ x ∈ groupMembers g, m.yb = x.yb) ∧ ∀ x ∈ groupMembers g, x.yb ≤ m.yb) ∧
  ((∃ x ∈ groupMembers g, m.number = x.number) ∧
    ∀ x ∈ groupMembers g, m.number ≤ x.number) ∧
  ((∃ x ∈ groupMembers g, m.xo = x.xo) ∧ ∀ x ∈ groupMembers g, m.xo ≤ x.xo) ∧
  ((∃ x ∈ groupMembers g, m.yo = x.yo) ∧ ∀ x ∈ groupMembers g, m.yo ≤ x.yo) ∧
  ((∃ x ∈ groupMembers g, m.ascender = x.ascender) ∧
    ∀ x ∈ groupMembers g, x.ascender ≤ m.ascender) ∧
  ((∃ x ∈ groupMembers g, m.descender = x.descender) ∧
    ∀ x ∈ groupMembers g, m.descender ≤ x.descender) ∧
  m.size = g.1.size ∧
  m.font = g.1.font ∧
  m.flags = g.1.flags ∧
  m.char_flags = g.1.char_flags ∧
  m.bidi = g.1.bidi ∧
  m.alpha = g.1.alpha ∧
  m.rgb_color = g.1.rgb_color ∧
  m.horizontal_end_on_page = g.1.horizontal_end_on_page ∧
  m.line = g.1.line ∧
  m.text = trimText (joinTexts ((groupMembers g).map (fun x => x.text))) ∧
  ((∀ x ∈ groupMembers g, trimText x.text = x.text ∧ x.text ≠ []) →
    ∀ j (hj : j < (groupMembers g).length),
      ∃ pre post,
        m.text = pre ++ ((groupMembers g).get ⟨j, hj⟩).text ++ post)

end PdfHandler

namespace PdfHandler

/-! ### The comparison used for sorting is a total preorder -/

theorem lexLe_refl (le : α → α → Bool) [DecidableEq α] :
    ∀ l, lexLe le l l = true
  | [] => rfl
  | a :: as => by simp [lexLe, lexLe_refl le as]

theorem lexLe_total (le : α → α → Bool) [DecidableEq α]
    (hto : ∀ a b, le a b = true ∨ le b a = true) :
    ∀ x y, lexLe le x y = true ∨ lexLe le y x = true
  | [], _ => .inl rfl
  | _ :: _, [] => .inr rfl
  | a :: as, b :: bs => by
    by_cases hab : a = b
    · subst hab
      simpa [lexLe] using lexLe_total le hto as bs
    · have hba : ¬ b = a := fun h => hab h.symm
      simpa [lexLe, hab, hba] using hto a b

theorem lexLe_antisymm (le : α → α → Bool) [DecidableEq α]
    (han : ∀ a b, le a b = true → le b a = true → a = b) :
    ∀ x y, lexLe le x y = true → lexLe le y x = true → x = y
  | [], [], _, _ => rfl
  | [], _ :: _, _, h2 => by simp [lexLe] at h2
  | _ :: _, [], h1, _ => by simp [lexLe] at h1
  | a :: as, b :: bs, h1, h2 => by
    by_cases hab : a = b
    · subst hab
      simp only [lexLe, if_pos rfl] at h1 h2
      rw [lexLe_antisymm le han as bs h1 h2]
    · have hba : ¬ b = a := fun h => hab h.symm
      simp only [lexLe, if_neg hab, if_neg hba] at h1 h2
      exact absurd (han a b h1 h2) hab

theorem lexLe_trans (le : α → α → Bool) [DecidableEq α]
    (han : ∀ a b, le a b = true → le b a = true → a = b)
    (htr : ∀ a b c, le a b = true → le b c = true → le a c = true) :
    ∀ x y z, lexLe le x y = true → lexLe le y z = true → lexLe le x z = true
  | [], _, _, _, _ => rfl
  | _ :: _, [], _, h1, _ => by simp [lexLe] at h1
  | _ :: _, _ :: _, [], _, h2 => by simp [lexLe] at h2
  | a :: as, b :: bs, c :: cs, h1, h2 => by
    by_cases hab : a = b <;> by_cases hbc : b = c
    · subst hab; subst hbc
      simp only [lexLe, if_pos rfl] at h1 h2 ⊢
      exact lexLe_trans le han htr as bs cs h1 h2
    · subst hab
      simp only [lexLe, if_pos rfl, if_neg hbc] at h1 h2 ⊢
      exact h2
    · subst hbc
      simp only [lexLe, if_neg hab] at h1 ⊢
      exact h1
    · simp only [lexLe, if_neg hab] at h1
      simp only [lexLe, if_neg hbc] at h2
      by_cases hac : a = c
      · exfalso
        apply hab
        apply han a b h1
        have h2a : le b a = true := by
          rw [hac]
          exact h2
        exact h2a
      · simp only [lexLe, if_neg hac]
        exact htr a b c h1 h2

theorem charLe_total (a b : Char) : charLe a b = true ∨ charLe b a = true := by
  simpa [charLe, decide_eq_true_eq] using le_total a b

theorem charLe_antisymm (a b : Char) (h1 : charLe a b = true)
    (h2 : charLe b a = true) : a = b := by
  simp only [charLe, decide_eq_true_eq] at h1 h2
  exact le_antisymm h1 h2

theorem charLe_trans (a b c : Char) (h1 : charLe a b = true)
    (h2 : charLe b c = true) : charLe a c = true := by
  simp only [charLe, decide_eq_true_eq] at h1 h2 ⊢
  exact le_trans h1 h2

theorem vLe_total (a b : Value) : vLe a b = true ∨ vLe b a = true := by
  rcases a with z | q | s <;> rcases b with z2 | q2 | s2 <;>
    simp [vLe, decide_eq_true_eq]
  · exact le_total z z2
  · exact le_total q q2
  · exact lexLe_total charLe charLe_total s s2

theorem vLe_antisymm (a b : Value) (h1 : vLe a b = true)
    (h2 : vLe b a = true) : a = b := by
  rcases a with z | q | s <;> rcases b with z2 | q2 | s2 <;>
    simp [vLe, decide_eq_true_eq] at h1 h2 ⊢
  · exact le_antisymm h1 h2
  · exact le_antisymm h1 h2
  · exact lexLe_antisymm charLe charLe_antisymm s s2 h1 h2

theorem vLe_trans (a b c : Value) (h1 : vLe a b = true)
    (h2 : vLe b c = true) : vLe a c = true := by
  rcases a with z | q | s <;> rcases b with z2 | q2 | s2 <;>
    rcases c with z3 | q3 | s3 <;>
    simp [vLe, decide_eq_true_eq] at h1 h2 ⊢
  · exact le_trans h1 h2
  · exact le_trans h1 h2
  · exact lexLe_trans charLe charLe_antisymm charLe_trans s s2 s3 h1 h2

theorem contentLe_refl (k : List Attr) (a : Content) : contentLe k a a = true :=
  lexLe_refl vLe _

theorem contentLe_of_keyEq (k : List Attr) {a b : Content}
    (h : keyOf k a = keyOf k b) : contentLe k a b = true := by
  unfold contentLe
  rw [h]
  exact lexLe_refl vLe _

theorem contentLe_total (k : List Attr) (a b : Content) :
    contentLe k a b = true ∨ contentLe k b a = true :=
  lexLe_total vLe vLe_total _ _

theorem contentLe_trans (k : List Attr) (a b c : Content)
    (h1 : contentLe k a b = true) (h2 : contentLe k b c = true) :
    contentLe k a c = true :=
  lexLe_trans vLe vLe_antisymm vLe_trans _ _ _ h1 h2

instance (k : List Attr) : IsTotal Content (rKey k) :=
  ⟨fun a b => contentLe_total k a b⟩

instance (k : List Attr) : IsTrans Content (rKey k) :=
  ⟨fun a b c => contentLe_trans k a b c⟩

/-! ### Properties of the sort model -/

theorem sortList_perm (k : List Attr) (l : List Content) :
    List.Perm (sortList k l) l :=
  List.perm_insertionSort _ l

theorem sortList_sorted (k : List Attr) (l : List Content) :
    List.Sorted (rKey k) (sortList k l) :=
  List.sorted_insertionSort _ l

theorem sortList_of_sorted {k : List Attr} {l : List Content}
    (h : List.Sorted (rKey k) l) : sortList k l = l :=
  List.Sorted.insertionSort_eq h

theorem sortList_idem (k : List Attr) (l : List Content) :
    sortList k (sortList k l) = sortList k l :=
  sortList_of_sorted (sortList_sorted k l)

theorem pairwise_of_mem {R : α → α → Prop} :
    ∀ {l : List α}, (∀ a ∈ l, ∀ b ∈ l, R a b) → l.Pairwise R
  | [], _ => List.Pairwise.nil
  | x :: xs, h => by
    refine List.Pairwise.cons ?_ (pairwise_of_mem ?_)
    · intro b hb
      exact h x (by simp) b (by simp [hb])
    · intro a ha b hb
      exact h a (by simp [ha]) b (by simp [hb])

/-- Stability of the sort model: the subsequence of spans carrying any fixed
key value is untouched by sorting. -/
theorem sortList_filter_key (k : List Attr) (l : List Content) (v : List Value) :
    (sortList k l).filter (fun x => decide (keyOf k x = v)) =
      l.filter (fun x => decide (keyOf k x = v)) := by
  set p : Content → Bool := fun x => decide (keyOf k x = v) with hp
  have hpair : (l.filter p).Pairwise (rKey k) := by
    refine pairwise_of_mem ?_
    intro a ha b hb
    have ha2 : p a = true := List.of_mem_filter ha
    have hb2 : p b = true := List.of_mem_filter hb
    simp only [hp, decide_eq_true_eq] at ha2 hb2
    exact contentLe_of_keyEq k (ha2.trans hb2.symm)
  have hsub : List.Sublist (l.filter p) (sortList k l) :=
    List.sublist_insertionSort hpair (List.filter_sublist l)
  have hsub2 : List.Sublist ((l.filter p).filter p) ((sortList k l).filter p) :=
    List.Sublist.filter p hsub
  rw [List.filter_filter] at hsub2
  have hself : (fun x => p x && p x) = p := by
    funext x
    exact Bool.and_self (p x)
  rw [hself] at hsub2
  have hperm : ((sortList k l).filter p).Perm (l.filter p) :=
    (sortList_perm k l).filter p
  exact (List.Sublist.eq_of_length hsub2 hperm.length_eq.symm).symm

/-! ### The grouping pass of `join` computes maximal chains -/

/-- Full specification of `chainFrom`: it partitions the input into the chain
continuing the current group followed by the later groups; every group is a
chain of spans each `R`-related to its immediate predecessor; consecutive
groups break the relation at their boundary; and the first later group breaks
the relation with the current group's last member. -/
theorem chainFrom_spec (R : α → α → Bool) :
    ∀ (l : List α) (prev : α),
      (chainFrom R prev l).1 ++ flattenGroups (chainFrom R prev l).2 = l ∧
      List.Chain (fun a b => R b a = true) prev (chainFrom R prev l).1 ∧
      (∀ g ∈ (chainFrom R prev l).2,
        List.Chain (fun a b => R b a = true) g.1 g.2) ∧
      List.Chain' (fun g1 g2 => R g2.1 (g1.2.getLastD g1.1) = false)
        (chainFrom R prev l).2 ∧
      (∀ g0 ∈ ((chainFrom R prev l).2).head?,
        R g0.1 ((chainFrom R prev l).1.getLastD prev) = false)
  | [], prev => by
    refine ⟨rfl, List.Chain.nil, ?_, List.chain'_nil, ?_⟩ <;> simp [chainFrom]
  | x :: xs, prev => by
    have IH := chainFrom_spec R xs x
    by_cases hR : R x prev = true
    · simp only [chainFrom, if_pos hR]
      refine ⟨?_, ?_, IH.2.2.1, IH.2.2.2.1, ?_⟩
      · simpa using IH.1
      · exact List.Chain.cons hR IH.2.1
      · intro g0 hg0
        rw [List.getLastD_cons]
        exact IH.2.2.2.2 g0 hg0
    · have hR2 : R x prev = false := by
        simpa using hR
      simp only [chainFrom, if_neg hR]
      refine ⟨?_, List.Chain.nil, ?_, ?_, ?_⟩
      · simpa [flattenGroups, groupMembers] using IH.1
      · intro g hg
        rcases List.mem_cons.mp hg with h | h
        · subst h
          exact IH.2.1
        · exact IH.2.2.1 g h
      · refine List.Chain'.cons' IH.2.2.2.1 ?_
        intro g0 hg0
        exact IH.2.2.2.2 g0 hg0
      · intro g0 hg0
        simp only [List.head?_cons, Option.mem_def, Option.some.injEq] at hg0
        subst hg0
        simpa using hR2

/-- The groups of `seqGroups` flatten back to the input sequence. -/
theorem seqGroups_flatten (R : α → α → Bool) :
    ∀ l : List α, flattenGroups (seqGroups R l) = l
  | [] => rfl
  | x :: xs => by
    have IH := chainFrom_spec R xs x
    simp only [seqGroups, flattenGroups, List.map_cons, List.flatten_cons,
      groupMembers]
    have h1 := IH.1
    simp only [flattenGroups] at h1
    simpa using h1

/-- Every group of `seqGroups` is a chain in which each member is `R`-related
to the immediately preceding member. -/
theorem seqGroups_chain (R : α → α → Bool) :
    ∀ l : List α, ∀ g ∈ seqGroups R l,
      List.Chain (fun a b => R b a = true) g.1 g.2
  | [] => by simp [seqGroups]
  | x :: xs => by
    have IH := chainFrom_spec R xs x
    intro g hg
    simp only [seqGroups, List.mem_cons] at hg
    rcases hg with h | h
    · subst h
      exact IH.2.1
    · exact IH.2.2.1 g h

/-- The groups of `seqGroups` are maximal: at every boundary between two
consecutive groups the relation to the preceding group's last member fails. -/
theorem seqGroups_boundary (R : α → α → Bool) :
    ∀ l : List α,
      List.Chain' (fun g1 g2 => R g2.1 (g1.2.getLastD g1.1) = false)
        (seqGroups R l)
  | [] => List.chain'_nil
  | x :: xs => by
    have IH := chainFrom_spec R xs x
    simp only [seqGroups]
    exact List.Chain'.cons' IH.2.2.2.1 IH.2.2.2.2

/-! ### Emission of merged spans -/

theorem emitGroups_length :
    ∀ (gs : List (Content × List Content)) (n : ℤ),
      (emitGroups gs n).length = gs.length
  | [], _ => rfl
  | _ :: gs, n => by simp [emitGroups, emitGroups_length gs (n + 1)]

theorem emitGroups_getElem :
    ∀ (gs : List (Content × List Content)) (n : ℤ) (i : ℕ) (h : i < gs.length),
      (emitGroups gs n)[i]? =
        some (PDFContents.create_content_by_sequential (gs.get ⟨i, h⟩)
          (n + (i : ℤ)))
  | g :: gs, n, 0, _ => by simp [emitGroups]
  | g :: gs, n, i + 1, h => by
    have hlt : i < gs.length := Nat.lt_of_succ_lt_succ h
    have IH := emitGroups_getElem gs (n + 1) i hlt
    simp only [emitGroups, List.getElem?_cons_succ]
    rw [IH]
    congr 2
    omega

/-! ### The forward band scan -/

theorem findBand_none_iff (p : α → Bool) :
    ∀ l : List α, findBand p l = none ↔ ∀ x ∈ l, p x = false
  | [] => by simp [findBand]
  | x :: xs => by
    by_cases hx : p x = true
    · simp [findBand, hx]
    · have hx2 : p x = false := by simpa using hx
      simp [findBand, hx2, findBand_none_iff p xs]

theorem findBand_some (p : α → Bool) :
    ∀ (l : List α) (x : α) (r : List α), findBand p l = some (x, r) →
      p x = true ∧ x :: r = (l.dropWhile (fun y => !(p y))).takeWhile p
  | [], _, _, h => by simp [findBand] at h
  | y :: ys, x, r, h => by
    by_cases hy : p y = true
    · simp only [findBand, if_pos hy, Option.some.injEq, Prod.mk.injEq] at h
      refine ⟨h.1 ▸ hy, ?_⟩
      rw [← h.1, ← h.2]
      simp [List.dropWhile_cons, List.takeWhile_cons, hy]
    · have hy2 : p y = false := by simpa using hy
      simp only [findBand, if_neg hy] at h
      have IH := findBand_some p ys x r h
      refine ⟨IH.1, ?_⟩
      rw [IH.2]
      simp [List.dropWhile_cons, hy2]

theorem findBand_isSome (p : α → Bool) (l : List α)
    (h : ∃ x ∈ l, p x = true) : (findBand p l).isSome = true := by
  rcases hfb : findBand p l with _ | pr
  · rcases h with ⟨x, hx, hpx⟩
    have := (findBand_none_iff p l).mp hfb x hx
    rw [this] at hpx
    cases hpx
  · rfl

/-! ### Python `min`/`max` over a non-empty list -/

theorem foldl_min_le_init [LinearOrder β] :
    ∀ (l : List β) (b : β), l.foldl min b ≤ b
  | [], _ => le_refl _
  | x :: l, b =>
    le_trans (foldl_min_le_init l (min b x)) (min_le_left b x)

theorem foldl_min_le_mem [LinearOrder β] :
    ∀ (l : List β) (b : β) (x : β), x ∈ l → l.foldl min b ≤ x
  | y :: l, b, x, hx => by
    rcases List.mem_cons.mp hx with h | h
    · subst h
      exact le_trans (foldl_min_le_init l (min b x)) (min_le_right b x)
    · exact foldl_min_le_mem l (min b y) x h

theorem foldl_min_mem [LinearOrder β] :
    ∀ (l : List β) (b : β), l.foldl min b = b ∨ l.foldl min b ∈ l
  | [], _ => .inl rfl
  | x :: l, b => by
    rcases foldl_min_mem l (min b x) with h | h
    · rcases min_choice b x with h2 | h2
      · left
        rw [List.foldl_cons, h, h2]
      · right
        rw [List.foldl_cons, h, h2]
        exact List.mem_cons_self x l
    · right
      rw [List.foldl_cons]
      exact List.mem_cons_of_mem x h

theorem foldl_max_le_init [LinearOrder β] :
    ∀ (l : List β) (b : β), b ≤ l.foldl max b
  | [], _ => le_refl _
  | x :: l, b =>
    le_trans (le_max_left b x) (foldl_max_le_init l (max b x))

theorem foldl_max_le_mem [LinearOrder β] :
    ∀ (l : List β) (b : β) (x : β), x ∈ l → x ≤ l.foldl max b
  | y :: l, b, x, hx => by
    rcases List.mem_cons.mp hx with h | h
    · subst h
      exact le_trans (le_max_right b x) (foldl_max_le_init l (max b x))
    · exact foldl_max_le_mem l (max b y) x h

theorem foldl_max_mem [LinearOrder β] :
    ∀ (l : List β) (b : β), l.foldl max b = b ∨ l.foldl max b ∈ l
  | [], _ => .inl rfl
  | x :: l, b => by
    rcases foldl_max_mem l (max b x) with h | h
    · rcases max_choice b x with h2 | h2
      · left
        rw [List.foldl_cons, h, h2]
      · right
        rw [List.foldl_cons, h, h2]
        exact List.mem_cons_self x l
    · right
      rw [List.foldl_cons]
      exact List.mem_cons_of_mem x h

theorem listMin_le [LinearOrder β] (f : Content → β) (a : Content)
    (t : List Content) : ∀ x ∈ a :: t, listMin f a t ≤ f x := by
  intro x hx
  rcases List.mem_cons.mp hx with h | h
  · subst h
    exact foldl_min_le_init _ _
  · exact foldl_min_le_mem _ _ _ (List.mem_map_of_mem f h)

theorem listMin_mem [LinearOrder β] (f : Content → β) (a : Content)
    (t : List Content) : ∃ x ∈ a :: t, listMin f a t = f x := by
  rcases foldl_min_mem (t.map f) (f a) with h | h
  · exact ⟨a, by simp, h⟩
  · rcases List.mem_map.mp h with ⟨x, hx, hfx⟩
    exact ⟨x, by simp [hx], hfx.symm⟩

theorem listMax_le [LinearOrder β] (f : Content → β) (a : Content)
    (t : List Content) : ∀ x ∈ a :: t, f x ≤ listMax f a t := by
  intro x hx
  rcases List.mem_cons.mp hx with h | h
  · subst h
    exact foldl_max_le_init _ _
  · exact foldl_max_le_mem _ _ _ (List.mem_map_of_mem f h)

theorem listMax_mem [LinearOrder β] (f : Content → β) (a : Content)
    (t : List Content) : ∃ x ∈ a :: t, listMax f a t = f x := by
  rcases foldl_max_mem (t.map f) (f a) with h | h
  · exact ⟨a, by simp, h⟩
  · rcases List.mem_map.mp h with ⟨x, hx, hfx⟩
    exact ⟨x, by simp [hx], hfx.symm⟩

/-! ### Text joining and trimming -/

theorem joinTexts_head (t : List Char) (ts : List (List Char)) :
    ∃ w, joinTexts (t :: ts) = t ++ w := by
  cases ts with
  | nil => exact ⟨[], by simp [joinTexts]⟩
  | cons t2 ts2 => exact ⟨' ' :: joinTexts (t2 :: ts2), rfl⟩

theorem joinTexts_last :
    ∀ (ts : List (List Char)) (h : ts ≠ []), ∃ w, joinTexts ts = w ++ ts.getLast h
  | [t], _ => ⟨[], by simp [joinTexts]⟩
  | t :: t2 :: ts2, _ => by
    rcases joinTexts_last (t2 :: ts2) (by simp) with ⟨w, hw⟩
    refine ⟨t ++ ' ' :: w, ?_⟩
    have hgl : (t :: t2 :: ts2).getLast (by simp) = (t2 :: ts2).getLast (by simp) :=
      List.getLast_cons (by simp)
    rw [hgl]
    show t ++ ' ' :: joinTexts (t2 :: ts2) = (t ++ ' ' :: w) ++ (t2 :: ts2).getLast (by simp)
    rw [hw]
    simp

theorem joinTexts_decomp :
    ∀ (ts : List (List Char)) (j : ℕ) (h : j < ts.length),
      ∃ pre post, joinTexts ts = pre ++ ts.get ⟨j, h⟩ ++ post
  | t :: ts, 0, _ => by
    rcases joinTexts_head t ts with ⟨w, hw⟩
    exact ⟨[], w, by simpa using hw⟩
  | t :: t2 :: ts2, j + 1, h => by
    rcases joinTexts_decomp (t2 :: ts2) j (Nat.lt_of_succ_lt_succ h) with
      ⟨pre, post, hpp⟩
    refine ⟨t ++ ' ' :: pre, post, ?_⟩
    show t ++ ' ' :: joinTexts (t2 :: ts2) = _
    rw [hpp]
    simp [List.get_cons_succ]

theorem dropWhile_length_eq (p : α → Bool) :
    ∀ l : List α, (l.dropWhile p).length = l.length → l.dropWhile p = l
  | [], _ => rfl
  | x :: xs, h => by
    by_cases hx : p x = true
    · exfalso
      rw [List.dropWhile_cons, if_pos hx] at h
      have := (List.dropWhile_sublist (l := xs) p).length_le
      simp only [List.length_cons] at h
      omega
    · have hx2 : p x = false := by simpa using hx
      rw [List.dropWhile_cons, if_neg (by simp [hx2])]

theorem head_false_of_dropWhile_eq (p : α → Bool) (x : α) (xs : List α)
    (h : (x :: xs).dropWhile p = x :: xs) : p x = false := by
  by_cases hx : p x = true
  · exfalso
    rw [List.dropWhile_cons, if_pos hx] at h
    have := (List.dropWhile_sublist (l := xs) p).length_le
    have h2 := congrArg List.length h
    simp only [List.length_cons] at h2
    omega
  · simpa using hx

theorem dropWhile_eq_self_of_head (p : α → Bool) (x : α) (xs : List α)
    (h : p x = false) : (x :: xs).dropWhile p = x :: xs := by
  rw [List.dropWhile_cons, if_neg (by simp [h])]

theorem trimText_parts {u : List Char} (h : trimText u = u) :
    u.dropWhile isWS = u ∧ u.reverse.dropWhile isWS = u.reverse := by
  have hlen : (trimText u).length = u.length := by rw [h]
  have h1 : ((u.dropWhile isWS).reverse.dropWhile isWS).length ≤
      (u.dropWhile isWS).length := by
    have := (List.dropWhile_sublist (l := (u.dropWhile isWS).reverse) isWS).length_le
    simpa using this
  have h2 : (u.dropWhile isWS).length ≤ u.length :=
    (List.dropWhile_sublist (l := u) isWS).length_le
  have hlen2 : (trimText u).length =
      ((u.dropWhile isWS).reverse.dropWhile isWS).length := by
    simp [trimText]
  have hdw : u.dropWhile isWS = u := by
    apply dropWhile_length_eq
    omega
  refine ⟨hdw, ?_⟩
  have h3 : trimText u = (u.reverse.dropWhile isWS).reverse := by
    rw [trimText, hdw]
  have h4 : (u.reverse.dropWhile isWS).reverse = u := by
    rw [← h3, h]
  have := congrArg List.reverse h4
  simpa using this

/-- Merged text is trim-stable whenever every member text is non-empty and
trim-stable: the concatenation-with-single-spaces is its own strip. -/
theorem trimText_joinTexts :
    ∀ (ts : List (List Char)), ts ≠ [] →
      (∀ t ∈ ts, trimText t = t ∧ t ≠ []) →
      trimText (joinTexts ts) = joinTexts ts := by
  intro ts hne hstable
  rcases ts with _ | ⟨t0, rest⟩
  · exact absurd rfl hne
  rcases hstable t0 (by simp) with ⟨ht0, ht0ne⟩
  rcases joinTexts_head t0 rest with ⟨w, hw⟩
  rcases t0 with _ | ⟨c, t0tl⟩
  · exact absurd rfl ht0ne
  have hc : isWS c = false :=
    head_false_of_dropWhile_eq isWS c t0tl (trimText_parts ht0).1
  have hstep1 : (joinTexts ((c :: t0tl) :: rest)).dropWhile isWS =
      joinTexts ((c :: t0tl) :: rest) := by
    rw [hw]
    exact dropWhile_eq_self_of_head isWS c (t0tl ++ w) hc
  set tk := ((c :: t0tl) :: rest).getLast (by simp) with htk
  have htkmem : tk ∈ (c :: t0tl) :: rest := List.getLast_mem _
  rcases hstable tk htkmem with ⟨htks, htkne⟩
  rcases joinTexts_last ((c :: t0tl) :: rest) (by simp) with ⟨w2, hw2⟩
  have hrne : tk.reverse ≠ [] := by
    simpa using htkne
  rcases hrev : tk.reverse with _ | ⟨d, r⟩
  · exact absurd hrev hrne
  have hd : isWS d = false := by
    apply head_false_of_dropWhile_eq isWS d r
    have := (trimText_parts htks).2
    rw [hrev] at this
    exact this
  have hstep2 : (joinTexts ((c :: t0tl) :: rest)).reverse.dropWhile isWS =
      (joinTexts ((c :: t0tl) :: rest)).reverse := by
    rw [hw2, List.reverse_append, hrev]
    exact dropWhile_eq_self_of_head isWS d (r ++ w2.reverse) hd
  rw [trimText, hstep1, hstep2]
  simp

/-! ### Bucket assignment -/

theorem assignedBucket_le_length (x : ℚ) :
    ∀ xs : List ℚ, assignedBucket xs x ≤ xs.length
  | [] => le_refl _
  | d :: ds => by
    by_cases hd : x ≤ d
    · simp [assignedBucket, hd]
    · simp only [assignedBucket, if_neg hd, List.length_cons]
      exact Nat.succ_le_succ (assignedBucket_le_length x ds)

theorem assignedBucket_sat (x : ℚ) :
    ∀ (xs : List ℚ) (hb : assignedBucket xs x < xs.length),
      x ≤ xs.get ⟨assignedBucket xs x, hb⟩
  | [], hb => absurd hb (by simp [assignedBucket])
  | d :: ds, hb => by
    by_cases hd : x ≤ d
    · simp [assignedBucket, hd]
    · have hb2 : assignedBucket ds x < ds.length := by
        simp only [assignedBucket, if_neg hd, List.length_cons] at hb
        omega
      have IH := assignedBucket_sat x ds hb2
      simp only [assignedBucket, if_neg hd]
      simpa [List.get_cons_succ] using IH

theorem assignedBucket_least (x : ℚ) :
    ∀ (xs : List ℚ) (j : ℕ) (hj : j < xs.length), x ≤ xs.get ⟨j, hj⟩ →
      assignedBucket xs x ≤ j
  | [], j, hj, _ => absurd hj (by simp)
  | d :: ds, 0, _, hx => by
    simp only [List.get] at hx
    simp [assignedBucket, hx]
  | d :: ds, j + 1, hj, hx => by
    by_cases hd : x ≤ d
    · simp [assignedBucket, hd]
    · simp only [assignedBucket, if_neg hd]
      have IH := assignedBucket_least x ds j (Nat.lt_of_succ_lt_succ hj)
        (by simpa [List.get_cons_succ] using hx)
      omega

theorem assignedBucket_eq_length (x : ℚ) (xs : List ℚ)
    (h : ∀ j (hj : j < xs.length), ¬ x ≤ xs.get ⟨j, hj⟩) :
    assignedBucket xs x = xs.length := by
  rcases Nat.lt_or_ge (assignedBucket xs x) xs.length with hlt | hge
  · exact absurd (assignedBucket_sat x xs hlt) (h _ hlt)
  · exact le_antisymm (assignedBucket_le_length x xs) hge

/-! ### Helper facts about `PDFContents.sort` -/

theorem sort_sorted_by (k : List Attr) (c : PDFContents) :
    (PDFContents.sort k true c).sorted_by = some k := by
  unfold PDFContents.sort
  by_cases h : c.sorted_by = some k
  · rw [if_pos ⟨rfl, h⟩]
    exact h
  · rw [if_neg (by simp [h])]

theorem sort_frame (k : List Attr) (u : Bool) (c : PDFContents) :
    (PDFContents.sort k u c).horizontal_end_on_page_by_x =
      c.horizontal_end_on_page_by_x ∧
    (PDFContents.sort k u c).is_joined = c.is_joined := by
  unfold PDFContents.sort
  by_cases h : u = true ∧ c.sorted_by = some k
  · rw [if_pos h]
    exact ⟨rfl, rfl⟩
  · rw [if_neg h]
    exact ⟨rfl, rfl⟩

theorem sort_contents_of_truthful (k : List Attr) {c : PDFContents}
    (h : CacheTruthful c) :
    (PDFContents.sort k true c).contents = sortList k c.contents := by
  unfold PDFContents.sort
  by_cases hc : c.sorted_by = some k
  · rw [if_pos ⟨rfl, hc⟩]
    unfold CacheTruthful at h
    rw [hc] at h
    exact (sortList_of_sorted h).symm
  · rw [if_neg (by simp [hc])]

theorem sort_contents_perm (k : List Attr) (u : Bool) (c : PDFContents) :
    List.Perm (PDFContents.sort k u c).contents c.contents := by
  unfold PDFContents.sort
  by_cases h : u = true ∧ c.sorted_by = some k
  · rw [if_pos h]
  · rw [if_neg h]
    exact sortList_perm k c.contents

/-! ### Heap-model lemmas -/

theorem assignContent_xl (x_delimiters : List ℚ) (cnt : Content) :
    (assignContent x_delimiters cnt).xl = cnt.xl := rfl

theorem assignContent_idem (x_delimiters : List ℚ) (cnt : Content) :
    assignContent x_delimiters (assignContent x_delimiters cnt) =
      assignContent x_delimiters cnt := rfl

theorem storeAssign_getElem (x_delimiters : List ℚ) :
    ∀ (ids : List ℕ) (σ : Store) (j : ℕ),
      (storeAssign x_delimiters ids σ)[j]? =
        if j ∈ ids then (σ[j]?).map (assignContent x_delimiters)
        else σ[j]?
  | [], σ, j => by simp [storeAssign]
  | i :: ids, σ, j => by
    have hstep : storeAssign x_delimiters (i :: ids) σ =
        storeAssign x_delimiters ids
          (match σ[i]? with
           | none => σ
           | some cnt => σ.set i (assignContent x_delimiters cnt)) := by
      simp [storeAssign]
    rw [hstep]
    rcases hσi : σ[i]? with _ | cnt
    · show (storeAssign x_delimiters ids σ)[j]? = _
      rw [storeAssign_getElem x_delimiters ids σ j]
      by_cases hji : j = i
      · subst hji
        by_cases hmem : j ∈ ids
        · simp [hmem, hσi]
        · simp [hmem, hσi]
      · by_cases hmem : j ∈ ids
        · simp [hmem, List.mem_cons, hji]
        · simp [hmem, List.mem_cons, hji]
    · have hilt : i < σ.length := by
        rw [List.getElem?_eq_some] at hσi
        exact hσi.1
      show (storeAssign x_delimiters ids
        (σ.set i (assignContent x_delimiters cnt)))[j]? = _
      rw [storeAssign_getElem x_delimiters ids (σ.set i (assignContent x_delimiters cnt)) j]
      by_cases hji : j = i
      · subst hji
        have hset : (σ.set j (assignContent x_delimiters cnt))[j]? =
            some (assignContent x_delimiters cnt) :=
          List.getElem?_set_eq_of_lt _ hilt
        by_cases hmem : j ∈ ids
        · simp [hmem, hset, hσi, assignContent_idem]
        · simp [hmem, hset, hσi]
      · have hset : (σ.set i (assignContent x_delimiters cnt))[j]? = σ[j]? :=
          List.getElem?_set_ne (by omega)
        by_cases hmem : j ∈ ids
        · simp [hmem, hset, List.mem_cons, hji]
        · simp [hmem, hset, List.mem_cons, hji]

/-! ### Claims -/

/-- A `sort` with `use_cache = false` fully rebuilds the collection: sorted
contents, key cached, other state kept. -/
theorem sort_false_eq (k : List Attr) (c : PDFContents) :
    PDFContents.sort k false c =
      ⟨sortList k c.contents, some k, c.horizontal_end_on_page_by_x,
        c.is_joined⟩ := by
  unfold PDFContents.sort
  rw [if_neg (by simp)]

/-- C5: `sort` is stable and idempotent, and the cache short-circuit is a true
no-op: sorting twice with the same key (`use_cache` false) equals sorting
once, state included; the spans carrying any fixed key value keep their
relative order (stability); and when the cached key equals the requested key,
`sort` with `use_cache` true returns the collection completely unchanged. -/
theorem claim5_sort_stable_idempotent_cache_noop (c : PDFContents)
    (k : List Attr) :
    PDFContents.sort k false (PDFContents.sort k false c) =
      PDFContents.sort k false c ∧
    (∀ v : List Value,
      (PDFContents.sort k false c).contents.filter
          (fun x => decide (keyOf k x = v)) =
        c.contents.filter (fun x => decide (keyOf k x = v))) ∧
    (c.sorted_by = some k → PDFContents.sort k true c = c) := by
  refine ⟨?_, ?_, ?_⟩
  · rw [sort_false_eq, sort_false_eq]
    simp [sortList_idem]
  · intro v
    rw [sort_false_eq]
    exact sortList_filter_key k c.contents v
  · intro h
    unfold PDFContents.sort
    rw [if_pos ⟨rfl, h⟩]

/-- Witness for C5 at a concrete collection and key. -/
theorem claim5_witness :
    cSorted.sorted_by = some defaultSortKey ∧
    PDFContents.sort defaultSortKey false
        (PDFContents.sort defaultSortKey false cSorted) =
      PDFContents.sort defaultSortKey false cSorted ∧
    PDFContents.sort defaultSortKey true cSorted = cSorted :=
  ⟨rfl,
    (claim5_sort_stable_idempotent_cache_noop cSorted defaultSortKey).1,
    (claim5_sort_stable_idempotent_cache_noop cSorted defaultSortKey).2.2 rfl⟩

/-- C7: for ascending delimiters, `assign_horizontal_end_on_page` gives every
span the least delimiter index its `xl` does not exceed, or the delimiter
count when `xl` exceeds them all; with delimiters `(200, 400)`, `xl = 150`
gets bucket 0, `xl = 250` bucket 1 and `xl = 450` bucket 2. -/
theorem claim7_bucket_assignment (xs : List ℚ)
    (_hasc : List.Chain' (fun a b => a < b) xs) :
    (∀ c : PDFContents,
      (PDFContents.assign_horizontal_end_on_page xs false c).contents =
        c.contents.map (fun cnt =>
          { cnt with
            horizontal_end_on_page := some ((assignedBucket xs cnt.xl : ℕ) : ℤ) })) ∧
    (∀ q : ℚ,
      (∀ hb : assignedBucket xs q < xs.length,
        q ≤ xs.get ⟨assignedBucket xs q, hb⟩) ∧
      (∀ j (hj : j < xs.length), q ≤ xs.get ⟨j, hj⟩ →
        assignedBucket xs q ≤ j) ∧
      ((∀ j (hj : j < xs.length), ¬ q ≤ xs.get ⟨j, hj⟩) →
        assignedBucket xs q = xs.length)) ∧
    assignedBucket [(200 : ℚ), 400] 150 = 0 ∧
    assignedBucket [(200 : ℚ), 400] 250 = 1 ∧
    assignedBucket [(200 : ℚ), 400] 450 = 2 := by
  refine ⟨?_, ?_, by decide, by decide, by decide⟩
  · intro c
    unfold PDFContents.assign_horizontal_end_on_page
    rw [if_neg (by simp)]
    rfl
  · intro q
    exact ⟨assignedBucket_sat q xs, assignedBucket_least q xs,
      assignedBucket_eq_length q xs⟩

/-- Witness for C7 at the concrete delimiters `(200, 400)` and the concrete
three-span collection of scenario C. -/
theorem claim7_witness :
    List.Chain' (fun a b : ℚ => a < b) [200, 400] ∧
    (PDFContents.assign_horizontal_end_on_page [(200 : ℚ), 400] false
        cBuck).contents =
      cBuck.contents.map (fun cnt =>
        { cnt with
          horizontal_end_on_page :=
            some ((assignedBucket [(200 : ℚ), 400] cnt.xl : ℕ) : ℤ) }) ∧
    assignedBucket [(200 : ℚ), 400] 150 = 0 := by
  have hchain : List.Chain' (fun a b : ℚ => a < b) [200, 400] :=
    List.chain'_cons.mpr ⟨by norm_num, List.chain'_singleton 400⟩
  exact ⟨hchain,
    (claim7_bucket_assignment [200, 400] hchain).1 cBuck,
    (claim7_bucket_assignment [200, 400] hchain).2.2.1⟩

/-- C8: both group-extraction queries reject a negative tolerance with the
`ValueError` branch (`invalidArgument`), and the attribute query rejects a
reference attribute that is not numeric; the embedding returns the error
directly, so no partial result exists and the receiver is untouched (the
functions are pure in the receiver). -/
theorem claim8_invalid_argument (c : PDFContents) (i : ℕ) (attr : Attr)
    (t : ℚ) :
    (t < 0 →
      PDFContents.get_contents_from_same_attr i attr t c =
        Except.error PdfError.invalidArgument ∧
      PDFContents.get_contents_from_same_row i t c =
        Except.error PdfError.invalidArgument) ∧
    (∀ ref, c.contents[i]? = some ref →
      isNumVal (attrVal attr ref) = false →
      PDFContents.get_contents_from_same_attr i attr t c =
        Except.error PdfError.invalidArgument) := by
  constructor
  · intro ht
    constructor
    · unfold PDFContents.get_contents_from_same_attr
      rw [if_pos ht]
    · unfold PDFContents.get_contents_from_same_row
      rw [if_pos ht]
  · intro ref href hnum
    unfold PDFContents.get_contents_from_same_attr
    by_cases ht : t < 0
    · rw [if_pos ht]
    · rw [if_neg ht]
      simp only [href]
      rw [if_pos hnum]

/-- Witness for C8: negative tolerance on both queries, and a non-numeric
attribute (`text`) with a valid tolerance. -/
theorem claim8_witness :
    ((-1 : ℚ) < 0 ∧
      PDFContents.get_contents_from_same_attr 0 Attr.text (-1) cRow =
        Except.error PdfError.invalidArgument ∧
      PDFContents.get_contents_from_same_row 0 (-1) cRow =
        Except.error PdfError.invalidArgument) ∧
    (isNumVal (attrVal Attr.text spanR1) = false ∧
      PDFContents.get_contents_from_same_attr 0 Attr.text 5 cRow =
        Except.error PdfError.invalidArgument) :=
  ⟨⟨by norm_num,
    (claim8_invalid_argument cRow 0 Attr.text (-1)).1 (by norm_num)⟩,
   ⟨by decide,
    (claim8_invalid_argument cRow 0 Attr.text 5).2 spanR1 rfl (by decide)⟩⟩

/-- C9: with a valid reference index, a non-negative tolerance and (for the
attribute query) a numeric reference attribute, the `referenceNotFound` branch
is unreachable: both queries succeed, because the reference span sits in the
re-sorted working copy and matches itself. -/
theorem claim9_reference_found (c : PDFContents) (i : ℕ) (t : ℚ)
    (ref : Content) (href : c.contents[i]? = some ref) (ht : 0 ≤ t) :
    (∀ attr, isNumVal (attrVal attr ref) = true →
      ∃ r, PDFContents.get_contents_from_same_attr i attr t c = Except.ok r) ∧
    (∃ r, PDFContents.get_contents_from_same_row i t c = Except.ok r) := by
  have htneg : ¬ t < 0 := not_lt.mpr ht
  have hmem : ref ∈ c.contents := List.getElem?_mem href
  constructor
  · intro attr hnum
    unfold PDFContents.get_contents_from_same_attr
    rw [if_neg htneg]
    simp only [href]
    rw [if_neg (by simp [hnum])]
    have hmem2 : ref ∈ (PDFContents.sort [Attr.page_number, attr] true
        (PDFContents.copy c)).contents := by
      rw [(sort_contents_perm [Attr.page_number, attr] true
        (PDFContents.copy c)).mem_iff]
      exact hmem
    have hself : PDFContents.is_same_attr ref ref attr t = true := by
      unfold PDFContents.is_same_attr
      simp [ht]
    have hsome := findBand_isSome
      (fun x => PDFContents.is_same_attr x ref attr t) _ ⟨ref, hmem2, hself⟩
    rcases hfb : findBand (fun x => PDFContents.is_same_attr x ref attr t)
        (PDFContents.sort [Attr.page_number, attr] true
          (PDFContents.copy c)).contents with _ | ⟨x, r⟩
    · rw [hfb] at hsome
      cases hsome
    · simp only [hfb]
      exact ⟨_, rfl⟩
  · unfold PDFContents.get_contents_from_same_row
    rw [if_neg htneg]
    simp only [href]
    have hmem2 : ref ∈ (PDFContents.sort [Attr.page_number, Attr.yo] true
        (PDFContents.copy c)).contents := by
      rw [(sort_contents_perm [Attr.page_number, Attr.yo] true
        (PDFContents.copy c)).mem_iff]
      exact hmem
    have hself : PDFContents.is_same_row ref ref t = true := by
      unfold PDFContents.is_same_row
      simp [ht]
    have hsome := findBand_isSome
      (fun x => PDFContents.is_same_row x ref t) _ ⟨ref, hmem2, hself⟩
    rcases hfb : findBand (fun x => PDFContents.is_same_row x ref t)
        (PDFContents.sort [Attr.page_number, Attr.yo] true
          (PDFContents.copy c)).contents with _ | ⟨x, r⟩
    · rw [hfb] at hsome
      cases hsome
    · simp only [hfb]
      exact ⟨_, rfl⟩

/-- Witness for C9 at the concrete two-span collection, reference 0,
tolerance 0, numeric attribute `size`. -/
theorem claim9_witness :
    cRow.contents[0]? = some spanR1 ∧ (0 : ℚ) ≤ 0 ∧
    isNumVal (attrVal Attr.size spanR1) = true ∧
    (∃ r, PDFContents.get_contents_from_same_attr 0 Attr.size 0 cRow =
      Except.ok r) ∧
    (∃ r, PDFContents.get_contents_from_same_row 0 0 cRow = Except.ok r) :=
  ⟨rfl, le_refl 0, by decide,
    (claim9_reference_found cRow 0 0 spanR1 rfl (le_refl 0)).1 Attr.size
      (by decide),
    (claim9_reference_found cRow 0 0 spanR1 rfl (le_refl 0)).2⟩

/-- C10: the copy-returning bucket assignment returns a collection over the
very same span cells; the assignment writes those shared cells, so reads
through the original collection see the new bucket values; cells outside the
collection are untouched; and the receiver object itself — its cached
`horizontal_end_on_page_by_x`, `sorted_by` and `is_joined` — is unchanged
(the method writes only the copy and the shared cells). -/
theorem claim10_assigned_shares_spans (xs : List ℚ) (c : RefPDFContents)
    (σ : Store) (hmiss : c.horizontal_end_on_page_by_x ≠ some xs) :
    (RefPDFContents.horizontal_end_on_page_assigned xs true c σ).1 = c ∧
    (RefPDFContents.horizontal_end_on_page_assigned xs true c σ).2.1.elems =
      c.elems ∧
    (∀ i ∈ c.elems,
      ((RefPDFContents.horizontal_end_on_page_assigned xs true c σ).2.2)[i]? =
        (σ[i]?).map (assignContent xs)) ∧
    (∀ j, j ∉ c.elems →
      ((RefPDFContents.horizontal_end_on_page_assigned xs true c σ).2.2)[j]? =
        σ[j]?) ∧
    (RefPDFContents.horizontal_end_on_page_assigned xs true c
        σ).2.1.horizontal_end_on_page_by_x = some xs := by
  unfold RefPDFContents.horizontal_end_on_page_assigned
    RefPDFContents.assign_horizontal_end_on_page RefPDFContents.copy
  rw [if_neg (by simpa using hmiss)]
  refine ⟨rfl, rfl, ?_, ?_, rfl⟩
  · intro i hi
    rw [storeAssign_getElem xs c.elems σ i]
    rw [if_pos hi]
  · intro j hj
    rw [storeAssign_getElem xs c.elems σ j]
    rw [if_neg hj]

/-- The cache short-circuit of `join`. -/
theorem join_of_joined (c : PDFContents) (h : c.is_joined = true) :
    PDFContents.join true c = c := by
  unfold PDFContents.join
  rw [if_pos ⟨rfl, h⟩]

/-- When `join` actually runs, the resulting collection is exactly: the merge
of the maximal groups of the internally sorted sequence, re-sorted by the join
key itself (which the initial sort has just cached), bucket cache kept, joined
flag set. -/
theorem join_eq (c : PDFContents) (u : Bool)
    (hrun : u = false ∨ c.is_joined = false) :
    PDFContents.join u c =
      ⟨sortList joinKey (joinEmitted c), some joinKey,
        c.horizontal_end_on_page_by_x, true⟩ := by
  have hguard : ¬ (u = true ∧ c.is_joined = true) := by
    rcases hrun with h | h <;> simp [h]
  have h1 : (PDFContents.sort joinKey true c).sorted_by = some joinKey :=
    sort_sorted_by joinKey c
  have h2 : (PDFContents.sort joinKey true c).horizontal_end_on_page_by_x =
      c.horizontal_end_on_page_by_x := (sort_frame joinKey true c).1
  unfold PDFContents.join
  rw [if_neg hguard]
  simp only [h1, h2, joinEmitted, joinGroupsOf]

/-- C2: inside `join` the collection is sorted by
`(page.number, yo, xo, block.id, line.id, rgb_color, font, size)`, and the
merge pass splits that sorted sequence into groups that are exactly the
maximal chains of adjacent spans in which each span is `_is_sequential` with
its immediate predecessor: the groups flatten back to the sorted sequence,
within a group every adjacent pair is sequential, and at every boundary
between consecutive groups sequentiality with the preceding group's last
member fails. -/
theorem claim2_join_sorts_and_groups_maximal_chains (c : PDFContents)
    (u : Bool) (hct : CacheTruthful c) (hrun : u = false ∨ c.is_joined = false) :
    (PDFContents.sort joinKey true c).contents = sortList joinKey c.contents ∧
    flattenGroups
        (seqGroups PDFContents.is_sequential (sortList joinKey c.contents)) =
      sortList joinKey c.contents ∧
    (∀ g ∈ seqGroups PDFContents.is_sequential (sortList joinKey c.contents),
      List.Chain (fun a b => PDFContents.is_sequential b a = true) g.1 g.2) ∧
    List.Chain'
      (fun g1 g2 => PDFContents.is_sequential g2.1 (g1.2.getLastD g1.1) = false)
      (seqGroups PDFContents.is_sequential (sortList joinKey c.contents)) ∧
    (PDFContents.join u c).contents =
      sortList joinKey
        (emitGroups
          (seqGroups PDFContents.is_sequential (sortList joinKey c.contents))
          0) := by
  have hsc : (PDFContents.sort joinKey true c).contents =
      sortList joinKey c.contents := sort_contents_of_truthful joinKey hct
  refine ⟨hsc, seqGroups_flatten _ _, seqGroups_chain _ _, seqGroups_boundary _ _, ?_⟩
  rw [join_eq c u hrun]
  simp only [joinEmitted, joinGroupsOf, hsc]

/-- Witness for C2 at the concrete four-span collection. -/
theorem claim2_witness :
    CacheTruthful cFour ∧ (false = false ∨ cFour.is_joined = false) ∧
    ((PDFContents.sort joinKey true cFour).contents =
        sortList joinKey cFour.contents ∧
      flattenGroups
          (seqGroups PDFContents.is_sequential (sortList joinKey cFour.contents)) =
        sortList joinKey cFour.contents ∧
      (∀ g ∈ seqGroups PDFContents.is_sequential (sortList joinKey cFour.contents),
        List.Chain (fun a b => PDFContents.is_sequential b a = true) g.1 g.2) ∧
      List.Chain'
        (fun g1 g2 =>
          PDFContents.is_sequential g2.1 (g1.2.getLastD g1.1) = false)
        (seqGroups PDFContents.is_sequential (sortList joinKey cFour.contents)) ∧
      (PDFContents.join false cFour).contents =
        sortList joinKey
          (emitGroups
            (seqGroups PDFContents.is_sequential
              (sortList joinKey cFour.contents))
            0)) :=
  ⟨by decide, Or.inl rfl,
    claim2_join_sorts_and_groups_maximal_chains cFour false (by decide)
      (Or.inl rfl)⟩

/-- C3 counterexample: on a two-block collection with no cached key, the claim
predicts a final re-sort by the default key `(page.number, block.id, line.id)`,
but `join` actually re-sorts by the join key (the initial sort overwrote the
cached key), and the two orders differ. -/
theorem claim3_counterexample :
    (PDFContents.join false cThree).contents ≠
      sortList joinFallbackKey
        (emitGroups
          (seqGroups PDFContents.is_sequential
            (sortList joinKey cThree.contents))
          0) := by
  decide

/-- C3 amended: after the merge pass, the spans are re-sorted by the join key
`(page.number, yo, xo, block.id, line.id, rgb_color, font, size)` itself — the
initial sort inside `join` overwrites the cached key before it is read back,
so the pre-call cached key and the `(page.number, block.id, line.id)` fallback
are never used — and the result replaces the collection's contents in place,
with the cached key left at the join key and the bucket cache kept. -/
theorem claim3_amended_resort_by_join_key (c : PDFContents) (u : Bool)
    (hrun : u = false ∨ c.is_joined = false) :
    PDFContents.join u c =
      ⟨sortList joinKey (joinEmitted c), some joinKey,
        c.horizontal_end_on_page_by_x, true⟩ :=
  join_eq c u hrun

/-- Witness for the amended C3 at the concrete two-block collection. -/
theorem claim3_amended_witness :
    (false = false ∨ cThree.is_joined = false) ∧
    PDFContents.join false cThree =
      ⟨sortList joinKey (joinEmitted cThree), some joinKey,
        cThree.horizontal_end_on_page_by_x, true⟩ :=
  ⟨Or.inl rfl, claim3_amended_resort_by_join_key cThree false (Or.inl rfl)⟩

/-- C4 counterexample: re-running the merge (`use_cache` false) on an
already-joined collection is not a no-op.  Joining `cFour` once yields three
spans; because merging lowered the `W X` span's `xo` below `A`'s, the re-sort
moves it in front, making `A` and `B` adjacent — and they are sequential, so a
second merge collapses them: `join(join(X)) ≠ join(X)`. -/
theorem claim4_counterexample :
    (PDFContents.join false cFour).contents.length = 3 ∧
    (PDFContents.join false (PDFContents.join false cFour)).contents.length = 2 ∧
    PDFContents.join false (PDFContents.join false cFour) ≠
      PDFContents.join false cFour := by
  refine ⟨by decide, by decide, ?_⟩
  intro h
  have := congrArg (fun x => x.contents.length) h
  simp only at this
  rw [show (PDFContents.join false (PDFContents.join false cFour)).contents.length = 2 by decide,
    show (PDFContents.join false cFour).contents.length = 3 by decide] at this
  exact absurd this (by decide)

/-- C4 amended: with caching (the default `use_cache = true`), `join` is
idempotent — the second call short-circuits on the `is_joined` flag, so
`join(join(X)) = join(X)`; a forced re-merge (`use_cache = false`) can change
the spans, as the counterexample shows. -/
theorem claim4_amended_join_idempotent_with_cache (c : PDFContents) :
    PDFContents.join true (PDFContents.join true c) = PDFContents.join true c := by
  have hj : (PDFContents.join true c).is_joined = true := by
    unfold PDFContents.join
    by_cases hg : true = true ∧ c.is_joined = true
    · rw [if_pos hg]
      exact hg.2
    · rw [if_neg hg]
  exact join_of_joined (PDFContents.join true c) hj

/-- C6: with a valid reference index and a tolerance `t ≥ 0`,
`get_contents_from_same_row` sorts a copy by `(page.number, yo)`, collects the
single contiguous band starting at the first span on the reference's page with
`|round(yo, 2) - round(ref.yo, 2)| ≤ t` and extending while that holds, and
returns that band sorted by the original collection's cached key, or by `id`
when no key was cached. -/
theorem claim6_same_row_band (c : PDFContents) (i : ℕ) (t : ℚ) (ref : Content)
    (href : c.contents[i]? = some ref) (ht : 0 ≤ t) (hct : CacheTruthful c) :
    PDFContents.get_contents_from_same_row i t c =
      Except.ok
        ⟨sortList (c.sorted_by.getD [Attr.id])
            (((sortList [Attr.page_number, Attr.yo] c.contents).dropWhile
                (fun x => !(PDFContents.is_same_row x ref t))).takeWhile
              (fun x => PDFContents.is_same_row x ref t)),
          some (c.sorted_by.getD [Attr.id]), none, false⟩ := by
  have htneg : ¬ t < 0 := not_lt.mpr ht
  unfold PDFContents.get_contents_from_same_row
  rw [if_neg htneg]
  simp only [href]
  rw [show PDFContents.copy c = c from rfl]
  have hsc : (PDFContents.sort [Attr.page_number, Attr.yo] true c).contents =
      sortList [Attr.page_number, Attr.yo] c.contents :=
    sort_contents_of_truthful _ hct
  have hmem : ref ∈ (PDFContents.sort [Attr.page_number, Attr.yo] true
      c).contents := by
    rw [(sort_contents_perm [Attr.page_number, Attr.yo] true c).mem_iff]
    exact List.getElem?_mem href
  have hself : PDFContents.is_same_row ref ref t = true := by
    unfold PDFContents.is_same_row
    simp [ht]
  have hsome := findBand_isSome (fun x => PDFContents.is_same_row x ref t) _
    ⟨ref, hmem, hself⟩
  rcases hfb : findBand (fun x => PDFContents.is_same_row x ref t)
      (PDFContents.sort [Attr.page_number, Attr.yo] true c).contents with
    _ | ⟨x, r⟩
  · rw [hfb] at hsome
    cases hsome
  · simp only [hfb]
    have hband := findBand_some (fun x => PDFContents.is_same_row x ref t) _
      x r hfb
    have hxr : x :: r =
        ((sortList [Attr.page_number, Attr.yo] c.contents).dropWhile
            (fun y => !(PDFContents.is_same_row y ref t))).takeWhile
          (fun y => PDFContents.is_same_row y ref t) := by
      rw [hband.2, hsc]
    have hkey : (match c.sorted_by with
        | some k => k
        | none => [Attr.id]) = c.sorted_by.getD [Attr.id] := by
      cases c.sorted_by <;> rfl
    simp only [hkey]
    unfold PDFContents.sort
    rw [if_neg (by simp)]
    rw [hxr]

/-- Witness for C6: scenario B — two spans with `yo = 100.001` and
`yo = 100.004` and tolerance `0.01`; both spans are returned. -/
theorem claim6_witness :
    cRow.contents[0]? = some spanR1 ∧ (0 : ℚ) ≤ 1/100 ∧ CacheTruthful cRow ∧
    PDFContents.get_contents_from_same_row 0 (1/100) cRow =
      Except.ok
        ⟨sortList (cRow.sorted_by.getD [Attr.id])
            (((sortList [Attr.page_number, Attr.yo] cRow.contents).dropWhile
                (fun x => !(PDFContents.is_same_row x spanR1 (1/100)))).takeWhile
              (fun x => PDFContents.is_same_row x spanR1 (1/100))),
          some (cRow.sorted_by.getD [Attr.id]), none, false⟩ ∧
    PDFContents.get_contents_from_same_row 0 (1/100) cRow =
      Except.ok ⟨[spanR1, spanR2], some [Attr.id], none, false⟩ :=
  ⟨rfl, by norm_num, by decide,
    claim6_same_row_band cRow 0 (1/100) spanR1 rfl (by norm_num) (by decide),
    by decide⟩

/-- Each merged span fulfils the synthesis contract of C1 for its group. -/
theorem create_content_spec (g : Content × List Content) (i : ℕ) :
    MergedSpanSpec g (PDFContents.create_content_by_sequential g (i : ℤ)) i := by
  rcases g with ⟨a, tl⟩
  unfold MergedSpanSpec
  refine ⟨rfl, ?_, ?_, ?_, ?_, ?_, ?_, ?_, ?_, ?_, rfl, rfl, rfl, rfl, rfl,
    rfl, rfl, rfl, rfl, rfl, ?_⟩
  · exact ⟨listMin_mem (fun x => x.xl) a tl, listMin_le (fun x => x.xl) a tl⟩
  · exact ⟨listMin_mem (fun x => x.yt) a tl, listMin_le (fun x => x.yt) a tl⟩
  · exact ⟨listMax_mem (fun x => x.xr) a tl, listMax_le (fun x => x.xr) a tl⟩
  · exact ⟨listMax_mem (fun x => x.yb) a tl, listMax_le (fun x => x.yb) a tl⟩
  · exact ⟨listMin_mem (fun x => x.number) a tl, listMin_le (fun x => x.number) a tl⟩
  · exact ⟨listMin_mem (fun x => x.xo) a tl, listMin_le (fun x => x.xo) a tl⟩
  · exact ⟨listMin_mem (fun x => x.yo) a tl, listMin_le (fun x => x.yo) a tl⟩
  · exact ⟨listMax_mem (fun x => x.ascender) a tl, listMax_le (fun x => x.ascender) a tl⟩
  · exact ⟨listMin_mem (fun x => x.descender) a tl, listMin_le (fun x => x.descender) a tl⟩
  · intro hstable j hj
    have hts : ∀ u ∈ (a :: tl).map (fun x => x.text), trimText u = u ∧ u ≠ [] := by
      intro u hu
      rcases List.mem_map.mp hu with ⟨x, hx, hxt⟩
      rw [← hxt]
      exact hstable x hx
    have htrim : trimText (joinTexts ((a :: tl).map (fun x => x.text))) =
        joinTexts ((a :: tl).map (fun x => x.text)) :=
      trimText_joinTexts _ (by simp) hts
    have hmx : (PDFContents.create_content_by_sequential (a, tl) (i : ℤ)).text =
        trimText (joinTexts ((a :: tl).map (fun x => x.text))) := rfl
    rw [hmx, htrim]
    have hj2 : j < ((a :: tl).map (fun x => x.text)).length := by
      simpa using hj
    rcases joinTexts_decomp ((a :: tl).map (fun x => x.text)) j hj2 with
      ⟨pre, post, hpp⟩
    refine ⟨pre, post, ?_⟩
    rw [hpp]
    congr 1
    rw [List.get_map]
    rfl

/-- C1 counterexample: for a single input span whose text is `" x "`, `join`
strips the merged text to `"x"`, so the input span's text appears inside no
output span's text — the coverage sentence of C1 fails as universally
stated. -/
theorem claim1_counterexample :
    cWs.contents.map (fun x => x.text) = [[' ', 'x', ' ']] ∧
    (PDFContents.join false cWs).contents.map (fun x => x.text) = [['x']] ∧
    ¬ ∃ pre post : List Char, ['x'] = pre ++ ([' ', 'x', ' '] ++ post) := by
  refine ⟨by decide, by decide, ?_⟩
  rintro ⟨pre, post, h⟩
  have := congrArg List.length h
  simp [List.length_append] at this
  omega

/-- C1 amended: when `join` runs, its output is a permutation of one
synthesized span per maximal group of the internally sorted sequence, ids
dense from 0 in emission order, and each synthesized span satisfies the full
field contract (`bbox` union, trimmed space-joined text, min number, min
origin, max ascender, min descender, style and line from the first member);
the coverage sentence holds in the amended form: each input span's text
appears, in group order, inside the span synthesized from its own group,
provided the member texts are non-empty and trim-stable (with arbitrary
whitespace-padded texts the trimming can break it, and a text may also occur
in other output spans, so 'exactly one' is dropped). -/
theorem claim1_join_synthesis (c : PDFContents) (u : Bool)
    (hrun : u = false ∨ c.is_joined = false) :
    List.Perm (PDFContents.join u c).contents (joinEmitted c) ∧
    (joinEmitted c).length = (joinGroupsOf c).length ∧
    (∀ i (h : i < (joinGroupsOf c).length) m, (joinEmitted c)[i]? = some m →
      MergedSpanSpec ((joinGroupsOf c).get ⟨i, h⟩) m i) := by
  refine ⟨?_, emitGroups_length _ _, ?_⟩
  · rw [join_eq c u hrun]
    exact sortList_perm joinKey (joinEmitted c)
  · intro i h m hm
    unfold joinEmitted at hm
    rw [emitGroups_getElem (joinGroupsOf c) 0 i h] at hm
    have hmeq := (Option.some.inj hm).symm
    rw [show (0 : ℤ) + (i : ℤ) = (i : ℤ) by ring] at hmeq
    rw [hmeq]
    exact create_content_spec _ i

/-- Witness for the amended C1 at the one-span collection. -/
theorem claim1_witness :
    (false = false ∨ cWs.is_joined = false) ∧
    (List.Perm (PDFContents.join false cWs).contents (joinEmitted cWs) ∧
      (joinEmitted cWs).length = (joinGroupsOf cWs).length ∧
      (∀ i (h : i < (joinGroupsOf cWs).length) m,
        (joinEmitted cWs)[i]? = some m →
        MergedSpanSpec ((joinGroupsOf cWs).get ⟨i, h⟩) m i)) :=
  ⟨Or.inl rfl, claim1_join_synthesis cWs false (Or.inl rfl)⟩

/-- Witness for C10 at a two-cell store and the collection holding both
cells. -/
theorem claim10_witness :
    cRef10.horizontal_end_on_page_by_x ≠ some [(200 : ℚ), 400] ∧
    (RefPDFContents.horizontal_end_on_page_assigned [(200 : ℚ), 400] true
        cRef10 storeTen).1 = cRef10 ∧
    (RefPDFContents.horizontal_end_on_page_assigned [(200 : ℚ), 400] true
        cRef10 storeTen).2.1.elems = cRef10.elems ∧
    ((RefPDFContents.horizontal_end_on_page_assigned [(200 : ℚ), 400] true
        cRef10 storeTen).2.2)[0]? =
      (storeTen[0]?).map (assignContent [(200 : ℚ), 400]) := by
  have h := claim10_assigned_shares_spans [(200 : ℚ), 400] cRef10 storeTen
    (by decide)
  exact ⟨by decide, h.1, h.2.1, h.2.2.1 0 (by decide)⟩

end PdfHandler
